import Mathlib

/-!
Verification of the stark101 STARK prover/verifier sources against their
specification.

The Rust sources represent polynomials as coefficient vectors in ascending
order of degree (lambdaworks' Polynomial type).  We embed them as
coefficient lists over an abstract field of characteristic possibly
anything; theorems add the side conditions the code relies on (for example
that 2 is invertible in the Stark 252-bit prime field).

External collaborators (the field/FFT library, the Keccak-256 Merkle tree
and the Fiat-Shamir sponge) are modelled by their interfaces: FFT
evaluation is evaluation on the offset power-of-two domain, FFT
interpolation is Lagrange interpolation on that domain, Merkle and
transcript primitives are abstract operation records that each embedded
function receives as an argument, mirroring the Rust generics.
-/

set_option maxRecDepth 4000
set_option maxHeartbeats 1000000
set_option linter.unusedSectionVars false

namespace Stark101

instance fact_prime_5 : Fact (Nat.Prime 5) := ⟨by norm_num⟩

instance fact_prime_7 : Fact (Nat.Prime 7) := ⟨by norm_num⟩

instance fact_prime_13 : Fact (Nat.Prime 13) := ⟨by norm_num⟩

instance fact_prime_17 : Fact (Nat.Prime 17) := ⟨by norm_num⟩

variable {F : Type} [Field F]

/-! ## Coefficient-list polynomials (lambdaworks Polynomial) -/

/-- Horner evaluation of a coefficient list (ascending order), the
semantics of lambdaworks Polynomial::evaluate. -/
def evalPoly : List F → F → F
  | [], _ => 0
  | a :: t, x => a + x * evalPoly t x

/-- Componentwise sum after padding the shorter list with zeroes, the
semantics of pad_with_zero_coefficients followed by Polynomial addition. -/
def polyAdd : List F → List F → List F
  | [], q => q
  | p, [] => p
  | a :: p, b :: q => (a + b) :: polyAdd p q

/-- Product of coefficient lists (convolution). -/
def polyMul : List F → List F → List F
  | [], _ => []
  | a :: p, q => polyAdd (q.map (fun b => a * b)) (0 :: polyMul p q)

/-- Coefficients at even positions (Rust step_by(2)). -/
def evens : List F → List F
  | [] => []
  | [a] => [a]
  | a :: _ :: t => a :: evens t

/-- Coefficients at odd positions (Rust skip(1).step_by(2)). -/
def odds : List F → List F
  | [] => []
  | _ :: t => evens t

/-- Embedding of poly.rs fold_polynomial: split the coefficients into even
and odd parts, multiply the odd part by beta and add.  (lambdaworks'
Polynomial::new trims trailing zero coefficients, which does not change the
represented polynomial; we omit the trimming.) -/
def fold_polynomial (poly : List F) (beta : F) : List F :=
  polyAdd (evens poly) ((odds poly).map (fun v => v * beta))

/-- Embedding of fri.rs curr_layer_query_evals: the verifier-side folding
formula ((e + se) + beta * (e - se) * x⁻¹) / 2.  The Rust code unwraps the
inverses of the query point and of 2, which exist in the Stark field. -/
def curr_layer_query_evals (query eval sym_eval beta : F) : F :=
  let query_inv := query⁻¹
  let two_inv := (2 : F)⁻¹
  ((eval + sym_eval) + beta * (eval - sym_eval) * query_inv) * two_inv

/-- The canonical polynomial represented by a coefficient list.  This is a
specification-side bridge to Mathlib polynomials, not part of the embedded
code, hence noncomputable. -/
noncomputable def toPoly : List F → Polynomial F
  | [] => 0
  | a :: t => Polynomial.C a + Polynomial.X * toPoly t

/-! ### Basic bridge lemmas -/

theorem evalPoly_toPoly (l : List F) (x : F) : (toPoly l).eval x = evalPoly l x := by
  induction l with
  | nil => simp [toPoly, evalPoly]
  | cons a t ih => simp [toPoly, evalPoly, ih]

theorem coeff_toPoly (l : List F) (k : ℕ) : (toPoly l).coeff k = l.getD k 0 := by
  induction l generalizing k with
  | nil => simp [toPoly]
  | cons a t ih =>
    cases k with
    | zero => simp [toPoly]
    | succ n =>
      simp only [toPoly, Polynomial.coeff_add, Polynomial.coeff_C_succ,
        Polynomial.coeff_X_mul, ih, zero_add]
      rfl

theorem degree_toPoly_lt (l : List F) : (toPoly l).degree < (l.length : ℕ) ∨ l = [] := by
  cases l with
  | nil => exact Or.inr rfl
  | cons a t =>
    refine Or.inl ((Polynomial.degree_lt_iff_coeff_zero _ _).2 ?_)
    intro m hm
    rw [coeff_toPoly]
    exact List.getD_eq_default _ _ hm

theorem getD_polyAdd (p q : List F) (k : ℕ) :
    (polyAdd p q).getD k 0 = p.getD k 0 + q.getD k 0 := by
  induction p generalizing q k with
  | nil => simp [polyAdd]
  | cons a p ih =>
    cases q with
    | nil => simp [polyAdd]
    | cons b q =>
      cases k with
      | zero => simp [polyAdd]
      | succ n => simpa [polyAdd] using ih q n

theorem getD_map_mul_right (l : List F) (c : F) (k : ℕ) :
    (l.map (fun v => v * c)).getD k 0 = l.getD k 0 * c := by
  induction l generalizing k with
  | nil => simp
  | cons a t ih =>
    cases k with
    | zero => simp
    | succ n => simpa using ih n

theorem getD_map_mul_left (l : List F) (c : F) (k : ℕ) :
    (l.map (fun v => c * v)).getD k 0 = c * l.getD k 0 := by
  induction l generalizing k with
  | nil => simp
  | cons a t ih =>
    cases k with
    | zero => simp
    | succ n => simpa using ih n

theorem getD_evens (l : List F) (k : ℕ) : (evens l).getD k 0 = l.getD (2 * k) 0 := by
  induction l using evens.induct generalizing k with
  | case1 => simp [evens]
  | case2 a =>
    cases k with
    | zero => simp [evens]
    | succ n =>
      have h1 : ([a] : List F).length ≤ n + 1 := by
        simp only [List.length_singleton]; omega
      have h2 : ([a] : List F).length ≤ 2 * (n + 1) := by
        simp only [List.length_singleton]; omega
      rw [show evens [a] = [a] from rfl, List.getD_eq_default _ _ h1,
        List.getD_eq_default _ _ h2]
  | case3 a b t ih =>
    cases k with
    | zero => simp [evens]
    | succ n =>
      have h2 : 2 * (n + 1) = (2 * n) + 1 + 1 := by ring
      simp only [evens, h2, List.getD_cons_succ, ih]

theorem getD_odds (l : List F) (k : ℕ) : (odds l).getD k 0 = l.getD (2 * k + 1) 0 := by
  cases l with
  | nil => simp [odds]
  | cons a t => simpa [odds] using getD_evens t k

theorem toPoly_polyAdd (p q : List F) : toPoly (polyAdd p q) = toPoly p + toPoly q := by
  apply Polynomial.ext
  intro k
  simp only [coeff_toPoly, getD_polyAdd, Polynomial.coeff_add]

theorem evalPoly_polyAdd (p q : List F) (x : F) :
    evalPoly (polyAdd p q) x = evalPoly p x + evalPoly q x := by
  rw [← evalPoly_toPoly, ← evalPoly_toPoly, ← evalPoly_toPoly, toPoly_polyAdd,
    Polynomial.eval_add]

theorem evalPoly_map_mul_right (l : List F) (c : F) (x : F) :
    evalPoly (l.map (fun v => v * c)) x = evalPoly l x * c := by
  induction l with
  | nil => simp [evalPoly]
  | cons a t ih => simp [evalPoly, ih]; ring

/-- Even/odd decomposition of Horner evaluation: f(x) = f_e(x²) + x·f_o(x²). -/
theorem evalPoly_even_odd (l : List F) (x : F) :
    evalPoly l x = evalPoly (evens l) (x ^ 2) + x * evalPoly (odds l) (x ^ 2) := by
  induction l using evens.induct with
  | case1 => simp [evens, odds, evalPoly]
  | case2 a => simp [evens, odds, evalPoly]
  | case3 a b t ih =>
    have hO : odds (a :: b :: t) = b :: odds t := by
      cases t with
      | nil => rfl
      | cons c t2 => rfl
    simp only [evens, hO, evalPoly, ih]
    ring

theorem toPoly_map_mul_right (l : List F) (c : F) :
    toPoly (l.map (fun v => v * c)) = Polynomial.C c * toPoly l := by
  apply Polynomial.ext
  intro k
  simp only [coeff_toPoly, getD_map_mul_right, Polynomial.coeff_C_mul]
  ring

/-- Fold never has a nonzero coefficient beyond half the degree of the input. -/
theorem natDegree_fold_polynomial_le (f : List F) (beta : F) :
    (toPoly (fold_polynomial f beta)).natDegree ≤ (toPoly f).natDegree / 2 := by
  apply Polynomial.natDegree_le_iff_coeff_eq_zero.2
  intro m hm
  have h2m : (toPoly f).natDegree < 2 * m := by omega
  have h2m1 : (toPoly f).natDegree < 2 * m + 1 := by omega
  have he : f.getD (2 * m) 0 = 0 := by
    rw [← coeff_toPoly]
    exact Polynomial.coeff_eq_zero_of_natDegree_lt h2m
  have ho : f.getD (2 * m + 1) 0 = 0 := by
    rw [← coeff_toPoly]
    exact Polynomial.coeff_eq_zero_of_natDegree_lt h2m1
  rw [coeff_toPoly, fold_polynomial, getD_polyAdd, getD_evens, getD_map_mul_right,
    getD_odds, he, ho]
  ring

/-- Claim C5: fold_polynomial computes f_e + beta * f_o for the even/odd
split f(x) = f_e(x²) + x·f_o(x²); its degree is at most half the degree of
f; and its value at x² agrees with the verifier-side reconstruction formula
curr_layer_query_evals at every nonzero x (in a field where 2 ≠ 0, as in
the Stark 252-bit prime field). -/
theorem fold_polynomial_spec (f : List F) (beta x : F) (hx : x ≠ 0)
    (h2 : (2 : F) ≠ 0) :
    toPoly (fold_polynomial f beta)
        = toPoly (evens f) + Polynomial.C beta * toPoly (odds f)
      ∧ (∀ y : F, evalPoly f y
            = evalPoly (evens f) (y ^ 2) + y * evalPoly (odds f) (y ^ 2))
      ∧ (toPoly (fold_polynomial f beta)).natDegree ≤ (toPoly f).natDegree / 2
      ∧ evalPoly (fold_polynomial f beta) (x ^ 2)
          = curr_layer_query_evals x (evalPoly f x) (evalPoly f (-x)) beta := by
  refine ⟨?_, fun y => evalPoly_even_odd f y, natDegree_fold_polynomial_le f beta, ?_⟩
  · rw [fold_polynomial, toPoly_polyAdd, toPoly_map_mul_right, mul_comm]
  · have hL : evalPoly (fold_polynomial f beta) (x ^ 2)
        = evalPoly (evens f) (x ^ 2) + evalPoly (odds f) (x ^ 2) * beta := by
      rw [fold_polynomial, evalPoly_polyAdd, evalPoly_map_mul_right]
    have hplus := evalPoly_even_odd f x
    have hminus := evalPoly_even_odd f (-x)
    rw [neg_pow, show ((-1 : F) ^ 2) = 1 by ring, one_mul] at hminus
    rw [hL, curr_layer_query_evals, hplus, hminus]
    field_simp
    ring

/-- Concrete instance of the fold_polynomial specification in GF(5). -/
theorem fold_polynomial_spec_witness :
    ((2 : ZMod 5) ≠ 0)
      ∧ evalPoly (fold_polynomial ([1, 2, 3] : List (ZMod 5)) 2) (2 ^ 2)
          = curr_layer_query_evals 2 (evalPoly [1, 2, 3] 2)
              (evalPoly [1, 2, 3] (-2)) 2 :=
  ⟨by decide, (fold_polynomial_spec [1, 2, 3] 2 2 (by decide) (by decide)).2.2.2⟩

/-! ## Trace builder (prover.rs lines 40-48) -/

/-- The FibonacciSq recurrence: entry i of the sequence pushed by the
prover loop, which appends fib_squared[i-2]² + fib_squared[i-1]² for each
i in 2..1024 after the initial pushes of 1 and the witness. -/
def fibSqSeq (w : F) : ℕ → F
  | 0 => 1
  | 1 => w
  | i + 2 => fibSqSeq w i ^ 2 + fibSqSeq w (i + 1) ^ 2

/-- The length-1024 execution trace vector built by generate_proof
(INT_DOM_SIZE = 0b10000000000 = 1024). -/
def fib_squared (w : F) : List F := (List.range 1024).map (fibSqSeq w)

theorem getD_map_range (n : ℕ) (f : ℕ → F) (i : ℕ) (h : i < n) :
    ((List.range n).map f).getD i 0 = f i := by
  have hlen : i < ((List.range n).map f).length := by simpa using h
  rw [List.getD_eq_getElem _ _ hlen, List.getElem_map, List.getElem_range]

/-- Claim C7: the execution trace is a sequence of 1024 field elements with
a[0] = 1, a[1] = the witness, and a[i] = a[i-1]² + a[i-2]² for i in [2, 1024). -/
theorem fib_squared_spec (w : F) :
    (fib_squared w).length = 1024
      ∧ (fib_squared w).getD 0 0 = 1
      ∧ (fib_squared w).getD 1 0 = w
      ∧ ∀ i, 2 ≤ i → i < 1024 →
          (fib_squared w).getD i 0
            = ((fib_squared w).getD (i - 1) 0) ^ 2
              + ((fib_squared w).getD (i - 2) 0) ^ 2 := by
  refine ⟨by simp [fib_squared], ?_, ?_, ?_⟩
  · rw [fib_squared, getD_map_range 1024 _ 0 (by omega)]; rfl
  · rw [fib_squared, getD_map_range 1024 _ 1 (by omega)]; rfl
  · intro i h2 hlt
    obtain ⟨k, rfl⟩ : ∃ k, i = k + 2 := ⟨i - 2, by omega⟩
    rw [fib_squared, getD_map_range 1024 _ (k + 2) hlt,
      getD_map_range 1024 _ (k + 2 - 1) (by omega),
      getD_map_range 1024 _ (k + 2 - 2) (by omega)]
    have h1 : k + 2 - 1 = k + 1 := by omega
    have h0 : k + 2 - 2 = k := by omega
    rw [h1, h0, fibSqSeq]
    ring

/-- Concrete instance of the trace recurrence at index 5 in GF(7). -/
theorem fib_squared_spec_witness :
    (2 ≤ 5 ∧ 5 < 1024)
      ∧ (fib_squared (3 : ZMod 7)).getD 5 0
          = ((fib_squared (3 : ZMod 7)).getD 4 0) ^ 2
            + ((fib_squared (3 : ZMod 7)).getD 3 0) ^ 2 :=
  ⟨⟨by decide, by decide⟩, (fib_squared_spec (3 : ZMod 7)).2.2.2 5 (by decide) (by decide)⟩

/-! ## External interfaces: Fiat-Shamir transcript and Merkle commitments

The Keccak-256 sponge (lambdaworks DefaultTranscript) and the Merkle tree
backend are external collaborators; the embedded functions receive their
operations as an explicit record and thread the sponge state, mirroring
the Rust `&mut DefaultTranscript` argument. -/

/-- Operations of lambdaworks DefaultTranscript plus the byte encoders the
sources use when absorbing public inputs. -/
structure TransExt (F S : Type) where
  initState : S
  appendBytes : S → List ℕ → S
  sampleField : S → F × S
  sampleBytes : S → List ℕ × S
  feBytes : F → List ℕ
  usizeBytes : ℕ → List ℕ
  u256Bytes : ℕ → List ℕ

/-- Operations of the Keccak-256 Merkle tree backend: root of the tree
built over an evaluation vector, authentication path for a position, and
inclusion-proof verification against a root. -/
structure MerkleExt (F P : Type) where
  merkleRoot : List F → List ℕ
  merklePath : List F → ℕ → P
  pathVerify : List ℕ → ℕ → F → P → Bool

/-- Primitive 2^k-th root of unity of the field, indexed by k
(F::get_primitive_root_of_unity in lambdaworks). -/
structure FieldExt (F : Type) where
  rootOfUnity : ℕ → F

/-- Big-endian byte-string value, the semantics of U256::from_bytes_be on a
32-byte string. -/
def u256_from_bytes_be (l : List ℕ) : ℕ := l.foldl (fun acc b => acc * 256 + b) 0

/-- Lowest 64-bit limb of a 256-bit integer (limbs[3] in lambdaworks U256,
which stores limbs most-significant first). -/
def u256_limb3 (x : ℕ) : ℕ := x % 2 ^ 64

/-- Embedding of common.rs sample_queries: squeeze 32 bytes per query,
interpret big-endian, reduce modulo the domain size with div_rem, read the
remainder off its low limb. -/
def sample_queries {S : Type} (T : TransExt F S) (num_queries domain_size : ℕ)
    (s : S) : List ℕ × S :=
  (List.range num_queries).foldl
    (fun acc _ =>
      let bs := T.sampleBytes acc.2
      let query_index := u256_from_bytes_be bs.1
      let r := query_index % domain_size
      (acc.1 ++ [u256_limb3 r], bs.2))
    ([], s)

/-- Sponge state after i squeezes of 32 bytes. -/
def squeezeState {S : Type} (T : TransExt F S) (s : S) : ℕ → S
  | 0 => s
  | i + 1 => (T.sampleBytes (squeezeState T s i)).2

/-- The i-th 32-byte squeeze out of the sponge started in state s. -/
def squeezeBytes {S : Type} (T : TransExt F S) (s : S) (i : ℕ) : List ℕ :=
  (T.sampleBytes (squeezeState T s i)).1

theorem sample_queries_state {S : Type} (T : TransExt F S) (D : ℕ) (s : S)
    (num : ℕ) : (sample_queries T num D s).2 = squeezeState T s num := by
  induction num with
  | zero => rfl
  | succ n ih =>
    rw [sample_queries, List.range_succ, List.foldl_append]
    rw [sample_queries] at ih
    simp only [List.foldl_cons, List.foldl_nil, ih, squeezeState]

theorem sample_queries_succ {S : Type} (T : TransExt F S) (D : ℕ) (s : S)
    (n : ℕ) :
    (sample_queries T (n + 1) D s).1
      = (sample_queries T n D s).1
        ++ [u256_limb3 (u256_from_bytes_be (squeezeBytes T s n) % D)] := by
  rw [sample_queries, List.range_succ, List.foldl_append]
  simp only [List.foldl_cons, List.foldl_nil]
  rw [show (List.foldl _ ([], s) (List.range n)) = sample_queries T n D s from rfl,
    sample_queries_state, squeezeBytes]

/-- Claim C9: sample_queries returns exactly num_queries indices, the i-th
being the i-th 32-byte squeeze read as a big-endian integer and reduced
modulo the domain size; every index is below the domain size.  The side
conditions are those of the Rust code: the domain size is a nonzero usize
value (div_rem panics on zero and the remainder must fit the low limb). -/
theorem sample_queries_spec {S : Type} (T : TransExt F S) (num D : ℕ) (s : S)
    (hD : 0 < D) (hD64 : D ≤ 2 ^ 64) :
    (sample_queries T num D s).1
        = (List.range num).map (fun i => u256_from_bytes_be (squeezeBytes T s i) % D)
      ∧ (sample_queries T num D s).1.length = num
      ∧ ∀ q ∈ (sample_queries T num D s).1, q < D := by
  have key : (sample_queries T num D s).1
      = (List.range num).map (fun i => u256_from_bytes_be (squeezeBytes T s i) % D) := by
    induction num with
    | zero => rfl
    | succ n ih =>
      rw [sample_queries_succ, ih, List.range_succ, List.map_append]
      congr 1
      simp only [List.map_cons, List.map_nil]
      congr 1
      exact Nat.mod_eq_of_lt (lt_of_lt_of_le (Nat.mod_lt _ hD) hD64)
  refine ⟨key, by rw [key]; simp, ?_⟩
  intro q hq
  rw [key] at hq
  obtain ⟨i, _, rfl⟩ := List.mem_map.1 hq
  exact Nat.mod_lt _ hD

/-- Transcript instance with a counter state, used as a concrete input. -/
def natCounterTrans : TransExt (ZMod 5) ℕ where
  initState := 0
  appendBytes := fun s _ => s + 1
  sampleField := fun s => (0, s + 1)
  sampleBytes := fun s => ([s % 256], s + 1)
  feBytes := fun _ => []
  usizeBytes := fun _ => []
  u256Bytes := fun _ => []

/-- Concrete instance of the sample_queries specification. -/
theorem sample_queries_spec_witness :
    (0 < 10 ∧ 10 ≤ 2 ^ 64)
      ∧ (sample_queries natCounterTrans 3 10 0).1.length = 3 :=
  ⟨⟨by decide, by norm_num⟩,
    (sample_queries_spec natCounterTrans 3 10 0 (by decide) (by norm_num)).2.1⟩

/-! ## Vector commitment (common.rs) -/

/-- An opened leaf value together with its authentication path
(common.rs InclusionProof). -/
structure InclusionProof (F P : Type) where
  eval : F
  path : P

/-- A Merkle root together with the inclusion proofs generated for the
queried indices (common.rs VectorCommitment). -/
structure VectorCommitment (F P : Type) where
  root : List ℕ
  inclusion_proofs : List (InclusionProof F P)

/-- Embedding of common.rs VectorCommitment::verify_inclusion_proofs: zips
the given indices with the stored inclusion proofs and verifies each
index/proof pair against the root. -/
def VectorCommitment.verify_inclusion_proofs {P : Type} (M : MerkleExt F P)
    (self : VectorCommitment F P) (indices : List ℕ) : Bool :=
  ((indices.zip self.inclusion_proofs).map
      (fun pr => M.pathVerify self.root pr.1 pr.2.eval pr.2.path)).all (fun v => v)

theorem zip_take_take {α β : Type} :
    ∀ (l1 : List α) (l2 : List β),
      l1.zip l2 = (l1.take l2.length).zip (l2.take l1.length)
  | [], _ => by simp
  | _ :: _, [] => by simp
  | a :: t1, b :: t2 => by
    simp only [List.zip_cons_cons, List.length_cons, List.take_succ_cons]
    rw [← zip_take_take t1 t2]

/-- Claim C10: verify_inclusion_proofs checks only the zipped prefix of the
index and inclusion-proof lists: truncating each list to the other's length
does not change the result, and with an empty inclusion-proof list every
index list (in particular every non-empty one) verifies as true. -/
theorem verify_inclusion_proofs_zip_spec :
    ∀ (P : Type) (M : MerkleExt F P) (root : List ℕ)
      (prfs : List (InclusionProof F P)) (indices : List ℕ),
      (VectorCommitment.mk root prfs).verify_inclusion_proofs M indices
          = (VectorCommitment.mk root (prfs.take indices.length)).verify_inclusion_proofs
              M (indices.take prfs.length)
        ∧ (VectorCommitment.mk root
              ([] : List (InclusionProof F P))).verify_inclusion_proofs M indices
            = true := by
  intro P M root prfs indices
  constructor
  · rw [VectorCommitment.verify_inclusion_proofs, VectorCommitment.verify_inclusion_proofs]
    simp only
    rw [zip_take_take indices prfs]
  · rw [VectorCommitment.verify_inclusion_proofs]
    simp

/-! ## FRI (fri.rs)

Out-of-range vector indexing panics in Rust; the embedding reads such
accesses with a default value and the theorems carry the length conditions
under which the default is never reached. -/

/-- Fuel-based binary length: bitLen n = usize::BITS - n.leading_zeros(),
written structurally so that it reduces in the kernel. -/
def bitLenAux : ℕ → ℕ → ℕ
  | 0, _ => 0
  | fuel + 1, n => if n = 0 then 0 else bitLenAux fuel (n / 2) + 1

/-- Number of binary digits of n (0 for 0). -/
def bitLen (n : ℕ) : ℕ := bitLenAux n n

/-- Degree of a lambdaworks polynomial: index of the last nonzero
coefficient, 0 for the zero polynomial (Polynomial::new trims trailing
zeroes and degree() is one less than the trimmed length). -/
def listDegree [DecidableEq F] (l : List F) : ℕ :=
  (l.reverse.dropWhile (fun a => decide (a = 0))).length - 1

/-- Per-query opening data of one FRI layer (fri.rs ValidationData): path
for the queried index, opened symmetric value and its path. -/
structure ValidationData (F P : Type) where
  proof : P
  sym_eval : F
  sym_proof : P

instance {P : Type} [Inhabited P] : Inhabited (ValidationData F P) :=
  ⟨⟨default, 0, default⟩⟩

/-- One FRI layer (fri.rs FriLayer): Merkle root of the layer's evaluations
plus the per-query validation data. -/
structure FriLayer (F P : Type) where
  root : List ℕ
  validation_data : List (ValidationData F P)

/-- Semantics of lambdaworks evaluate_offset_fft with blowup 1 and explicit
domain size: evaluation of the polynomial on the offset domain
offset * w^i, i < n, where w is the primitive root of unity of order n
supplied by the field. -/
def evaluate_offset_fft (Phi : FieldExt F) (p : List F) (n : ℕ) (offset : F) :
    List F :=
  (List.range n).map (fun i => evalPoly p (offset * Phi.rootOfUnity (bitLen n - 1) ^ i))

/-- Embedding of fri.rs commit: evaluate on the offset domain and build the
Merkle tree; returns the evaluations and the tree root (authentication
paths are recomputed from the evaluations via MerkleExt.merklePath). -/
def fri_commit {P : Type} (Phi : FieldExt F) (M : MerkleExt F P) (p : List F)
    (n : ℕ) (offset : F) : List F × List ℕ :=
  let eval := evaluate_offset_fft Phi p n offset
  (eval, M.merkleRoot eval)

/-- Validation data recorded for one query index of one layer. -/
def mkValidationData {P : Type} (M : MerkleExt F P) (eval : List F)
    (idx n : ℕ) : ValidationData F P :=
  let sym_idx := (idx + n / 2) % n
  ⟨M.merklePath eval idx, eval.getD sym_idx 0, M.merklePath eval sym_idx⟩

/-- The recursive folding loop of commit_and_fold (the for k in 1..=L loop
of fri.rs): sample beta, fold, commit, absorb the root, append the layer. -/
def caf_loop {P S : Type} (Phi : FieldExt F) (M : MerkleExt F P)
    (T : TransExt F S) (query_indices : List ℕ) :
    ℕ → List F → ℕ → F → S → List (FriLayer F P) → List (FriLayer F P) × S
  | 0, _, _, _, s, layers => (layers, s)
  | k + 1, p, n, offset, s, layers =>
    let bs := T.sampleField s
    let p2 := fold_polynomial p bs.1
    let n2 := n / 2
    let offset2 := offset * offset
    let ec := fri_commit Phi M p2 n2 offset2
    let s2 := T.appendBytes bs.2 ec.2
    let layer : FriLayer F P :=
      ⟨ec.2, query_indices.map (fun i => mkValidationData M ec.1 (i % n2) n2)⟩
    caf_loop Phi M T query_indices k p2 n2 offset2 s2 (layers ++ [layer])

/-- Embedding of fri.rs commit_and_fold: commit to the input polynomial,
absorb the root, record layer 0 (whose queried indices are not reduced
modulo the domain size), then run bitLen (degree) foldings. -/
def commit_and_fold {P S : Type} (Phi : FieldExt F) [DecidableEq F]
    (M : MerkleExt F P) (T : TransExt F S) (polynomial : List F)
    (domain_size : ℕ) (offset : F) (query_indices : List ℕ) (s : S) :
    List (FriLayer F P) × S :=
  let number_of_foldings := bitLen (listDegree polynomial)
  let ec := fri_commit Phi M polynomial domain_size offset
  let s1 := T.appendBytes s ec.2
  let layer0 : FriLayer F P :=
    ⟨ec.2, query_indices.map (fun i => mkValidationData M ec.1 i domain_size)⟩
  caf_loop Phi M T query_indices number_of_foldings polynomial domain_size offset
    s1 [layer0]

/-- First-layer verification of decommit_and_fold: each claimed first-layer
value and each opened symmetric value must verify against the first root. -/
def first_layer_checks {P : Type} [Inhabited P] (M : MerkleExt F P)
    (layer : FriLayer F P) (query_indices : List ℕ) (query_evals : List F)
    (n : ℕ) : Bool :=
  (List.range query_indices.length).all (fun i =>
    let idx := query_indices.getD i 0
    let sym_idx := (idx + n / 2) % n
    let v := layer.validation_data.getD i default
    M.pathVerify layer.root idx (query_evals.getD i 0) v.proof
      && M.pathVerify layer.root sym_idx v.sym_eval v.sym_proof)

/-- Mutable state of the decommit_and_fold loop: current query points,
reconstructed evaluations, last opened symmetric values, domain size and
sponge state. -/
structure DcfState (F S : Type) where
  queries : List F
  query_evals : List F
  sym_evals : List F
  domain_size : ℕ
  sponge : S

/-- One iteration of the decommit_and_fold layer loop: sample beta, halve
the domain, absorb the layer root, reconstruct the folded values with
curr_layer_query_evals, square the query points, take the layer's symmetric
values, and verify both paths of every query. -/
def dcf_layer_update {P S : Type} [Inhabited P] (M : MerkleExt F P)
    (T : TransExt F S) (query_indices : List ℕ) (layer : FriLayer F P)
    (st : DcfState F S) : Bool × DcfState F S :=
  let bs := T.sampleField st.sponge
  let beta := bs.1
  let n := st.domain_size / 2
  let s2 := T.appendBytes bs.2 layer.root
  let nq := query_indices.length
  let newEvals := (List.range nq).map (fun i =>
    curr_layer_query_evals (st.queries.getD i 0) (st.query_evals.getD i 0)
      (st.sym_evals.getD i 0) beta)
  let newQueries := (List.range nq).map (fun i =>
    st.queries.getD i 0 * st.queries.getD i 0)
  let newSym := (List.range nq).map (fun i =>
    (layer.validation_data.getD i default).sym_eval)
  let ok := (List.range nq).all (fun i =>
    let idx := query_indices.getD i 0 % n
    let sym_idx := (idx + n / 2) % n
    let v := layer.validation_data.getD i default
    M.pathVerify layer.root idx (newEvals.getD i 0) v.proof
      && M.pathVerify layer.root sym_idx v.sym_eval v.sym_proof)
  (ok, ⟨newQueries, newEvals, newSym, n, s2⟩)

/-- The layer loop of decommit_and_fold; the Boolean result of the Rust
early return is the short-circuit conjunction of the per-layer checks. -/
def dcf_loop {P S : Type} [Inhabited P] (M : MerkleExt F P) (T : TransExt F S)
    (query_indices : List ℕ) :
    List (FriLayer F P) → DcfState F S → Bool
  | [], _ => true
  | layer :: rest, st =>
    let r := dcf_layer_update M T query_indices layer st
    r.1 && dcf_loop M T query_indices rest r.2

/-- State entering the layer loop: after absorbing the first root and
collecting the first layer's symmetric values. -/
def dcfInit {P S : Type} [Inhabited P] (T : TransExt F S)
    (layer0 : FriLayer F P) (domain_size : ℕ) (query_indices : List ℕ)
    (queries query_evals : List F) (s : S) : DcfState F S :=
  ⟨queries, query_evals,
    (List.range query_indices.length).map
      (fun i => (layer0.validation_data.getD i default).sym_eval),
    domain_size, T.appendBytes s layer0.root⟩

/-- Embedding of fri.rs decommit_and_fold.  Indexing layers[0] of an empty
layer vector panics in Rust, modelled by none. -/
def decommit_and_fold {P S : Type} [Inhabited P] (M : MerkleExt F P)
    (T : TransExt F S) (layers : List (FriLayer F P)) (domain_size : ℕ)
    (query_indices : List ℕ) (queries query_evals : List F) (s : S) :
    Option Bool :=
  match layers with
  | [] => none
  | layer0 :: rest =>
    some (first_layer_checks M layer0 query_indices query_evals domain_size
      && dcf_loop M T query_indices rest
          (dcfInit T layer0 domain_size query_indices queries query_evals s))

/-! ## FRI transcript behaviour (claim C3) -/

/-- Root-of-unity table for GF(17): 2 has order 8, 4 has order 4, 16 has
order 2. -/
def fieldExt17 : FieldExt (ZMod 17) :=
  ⟨fun k => if k = 3 then 2 else if k = 2 then 4 else if k = 1 then 16 else 1⟩

/-- Merkle interface whose root is the evaluation vector itself (injective
encoding) and whose path verification always succeeds; used to run the
embedded FRI functions on concrete inputs. -/
def valMerkle17 : MerkleExt (ZMod 17) Unit :=
  ⟨fun eval => eval.map (fun a => a.val), fun _ _ => (), fun _ _ _ _ => true⟩

/-- Transcript that records every absorbed byte chunk and counts squeezes,
sampling the field element 0; field elements are encoded by their value. -/
def recordingTrans17 : TransExt (ZMod 17) (List (List ℕ) × ℕ) where
  initState := ([], 0)
  appendBytes := fun st b => (st.1 ++ [b], st.2)
  sampleField := fun st => (0, (st.1, st.2 + 1))
  sampleBytes := fun st => (List.replicate 32 0, (st.1, st.2 + 1))
  feBytes := fun a => [a.val]
  usizeBytes := fun n => [n]
  u256Bytes := fun n => [n]

/-- Claim C3 counterexample: running commit_and_fold on the degree-2
polynomial 1 + 2x + 3x² over GF(17) (domain size 8, offset 1, one query,
betas sampled as 0) performs two foldings ending in the constant
polynomial [1], yet the transcript absorbs exactly the three layer Merkle
roots and never the encoding [1] of that final constant: the prover does
not absorb f_L into the transcript. -/
theorem commit_and_fold_absorbs_no_constant :
    fold_polynomial (fold_polynomial ([1, 2, 3] : List (ZMod 17)) 0) 0 = [1]
      ∧ recordingTrans17.feBytes 1 = [1]
      ∧ (commit_and_fold fieldExt17 valMerkle17 recordingTrans17 [1, 2, 3] 8 1 [0]
          ([], 0)).2.1.length = 3
      ∧ [1] ∉ (commit_and_fold fieldExt17 valMerkle17 recordingTrans17 [1, 2, 3] 8 1
          [0] ([], 0)).2.1 := by
  refine ⟨by decide, by decide, by decide, by decide⟩

/-- Transcript over an arbitrary field that records absorbed chunks and
squeeze counts, with an arbitrary field-sampling schedule. -/
def recordingTrans (fld : ℕ → F) : TransExt F (List (List ℕ) × ℕ) where
  initState := ([], 0)
  appendBytes := fun st b => (st.1 ++ [b], st.2)
  sampleField := fun st => (fld st.2, (st.1, st.2 + 1))
  sampleBytes := fun st => ([], (st.1, st.2 + 1))
  feBytes := fun _ => []
  usizeBytes := fun _ => []
  u256Bytes := fun _ => []

theorem caf_loop_layers_append {P S : Type} (Phi : FieldExt F)
    (M : MerkleExt F P) (T : TransExt F S) (qs : List ℕ) (k : ℕ) :
    ∀ (p : List F) (n : ℕ) (offset : F) (s : S)
      (L0 L1 : List (FriLayer F P)),
      (caf_loop Phi M T qs k p n offset s (L0 ++ L1)).1
          = L0 ++ (caf_loop Phi M T qs k p n offset s L1).1
        ∧ (caf_loop Phi M T qs k p n offset s (L0 ++ L1)).2
          = (caf_loop Phi M T qs k p n offset s L1).2 := by
  induction k with
  | zero => intro p n offset s L0 L1; exact ⟨rfl, rfl⟩
  | succ k ih =>
    intro p n offset s L0 L1
    simp only [caf_loop]
    rw [List.append_assoc]
    exact ih _ _ _ _ L0 _

/-- The layer produced by one folding step starting from polynomial p,
domain n, offset and a beta value. -/
def cafStepLayer {P : Type} (Phi : FieldExt F) (M : MerkleExt F P)
    (qs : List ℕ) (p : List F) (n : ℕ) (offset : F) (beta : F) :
    FriLayer F P :=
  ⟨(fri_commit Phi M (fold_polynomial p beta) (n / 2) (offset * offset)).2,
    qs.map (fun i => mkValidationData M
      (fri_commit Phi M (fold_polynomial p beta) (n / 2) (offset * offset)).1
      (i % (n / 2)) (n / 2))⟩

theorem caf_loop_succ_recording {P : Type} (Phi : FieldExt F)
    (M : MerkleExt F P) (fld : ℕ → F) (qs : List ℕ) (k : ℕ) (p : List F)
    (n : ℕ) (offset : F) (abs : List (List ℕ)) (c : ℕ)
    (L : List (FriLayer F P)) :
    caf_loop Phi M (recordingTrans fld) qs (k + 1) p n offset (abs, c) L
      = caf_loop Phi M (recordingTrans fld) qs k (fold_polynomial p (fld c))
          (n / 2) (offset * offset)
          (abs ++ [(cafStepLayer Phi M qs p n offset (fld c) : FriLayer F P).root],
            c + 1)
          (L ++ [cafStepLayer Phi M qs p n offset (fld c)]) := rfl

theorem caf_loop_recording_absorb {P : Type} (Phi : FieldExt F)
    (M : MerkleExt F P) (fld : ℕ → F) (qs : List ℕ) (k : ℕ) :
    ∀ (p : List F) (n : ℕ) (offset : F) (abs : List (List ℕ)) (c : ℕ),
      (caf_loop Phi M (recordingTrans fld) qs k p n offset (abs, c) []).2.1
        = abs ++ ((caf_loop Phi M (recordingTrans fld) qs k p n offset (abs, c)
            []).1).map FriLayer.root := by
  induction k with
  | zero =>
    intro p n offset abs c
    simp [caf_loop]
  | succ k ih =>
    intro p n offset abs c
    rw [caf_loop_succ_recording, List.nil_append]
    have hsplit := caf_loop_layers_append Phi M (recordingTrans fld) qs k
      (fold_polynomial p (fld c)) (n / 2) (offset * offset)
      (abs ++ [(cafStepLayer Phi M qs p n offset (fld c) : FriLayer F P).root],
        c + 1)
      [cafStepLayer Phi M qs p n offset (fld c)] []
    rw [show ([cafStepLayer Phi M qs p n offset (fld c)] : List (FriLayer F P))
        = [cafStepLayer Phi M qs p n offset (fld c)] ++ [] from (List.append_nil _).symm,
      hsplit.1, hsplit.2, ih]
    simp [List.append_assoc]

/-- Layer 0 as recorded by commit_and_fold (query indices not reduced). -/
def cafLayer0 {P : Type} (Phi : FieldExt F) (M : MerkleExt F P)
    (qs : List ℕ) (p : List F) (n : ℕ) (offset : F) : FriLayer F P :=
  ⟨(fri_commit Phi M p n offset).2,
    qs.map (fun i => mkValidationData M (fri_commit Phi M p n offset).1 i n)⟩

theorem commit_and_fold_recording_eq {P : Type} [DecidableEq F]
    (Phi : FieldExt F) (M : MerkleExt F P) (fld : ℕ → F) (qs : List ℕ)
    (p : List F) (n : ℕ) (offset : F) (abs0 : List (List ℕ)) (c0 : ℕ) :
    commit_and_fold Phi M (recordingTrans fld) p n offset qs (abs0, c0)
      = caf_loop Phi M (recordingTrans fld) qs (bitLen (listDegree p)) p n offset
          (abs0 ++ [(cafLayer0 Phi M qs p n offset : FriLayer F P).root], c0)
          [cafLayer0 Phi M qs p n offset] := rfl

/-- Advance the decommit loop state through a list of layers without
checking (the state evolution of the Rust loop). -/
def dcf_advance {P S : Type} [Inhabited P] (M : MerkleExt F P)
    (T : TransExt F S) (query_indices : List ℕ)
    (layers : List (FriLayer F P)) (st : DcfState F S) : DcfState F S :=
  layers.foldl (fun acc layer => (dcf_layer_update M T query_indices layer acc).2) st

theorem dcf_loop_append {P S : Type} [Inhabited P] (M : MerkleExt F P)
    (T : TransExt F S) (qidx : List ℕ) :
    ∀ (xs ys : List (FriLayer F P)) (st : DcfState F S),
      dcf_loop M T qidx (xs ++ ys) st
        = (dcf_loop M T qidx xs st
            && dcf_loop M T qidx ys (dcf_advance M T qidx xs st))
  | [], ys, st => by simp [dcf_loop, dcf_advance]
  | x :: xs, ys, st => by
    show ((dcf_layer_update M T qidx x st).1
        && dcf_loop M T qidx (xs ++ ys) (dcf_layer_update M T qidx x st).2)
      = (((dcf_layer_update M T qidx x st).1
          && dcf_loop M T qidx xs (dcf_layer_update M T qidx x st).2)
        && dcf_loop M T qidx ys
            (dcf_advance M T qidx xs (dcf_layer_update M T qidx x st).2))
    rw [dcf_loop_append M T qidx xs ys, Bool.and_assoc]

/-- Claim C3 (amended): after the last folding the prover absorbs the last
layer's Merkle root — the transcript's absorbed chunks are exactly the
roots of the produced layers, in order, and no constant is absorbed — and
the verifier rejects unless the value it reconstructs at the final layer
passes that layer's Merkle path verification: decommit_and_fold can return
true only if the check of the last layer, run on the state advanced through
all earlier layers, succeeds. -/
theorem fri_final_layer_spec [DecidableEq F] :
    (∀ (P : Type) (Phi : FieldExt F) (M : MerkleExt F P) (fld : ℕ → F)
        (p : List F) (n : ℕ) (offset : F) (qs : List ℕ)
        (abs0 : List (List ℕ)) (c0 : ℕ),
        (commit_and_fold Phi M (recordingTrans fld) p n offset qs (abs0, c0)).2.1
          = abs0 ++ ((commit_and_fold Phi M (recordingTrans fld) p n offset qs
              (abs0, c0)).1).map FriLayer.root)
      ∧ (∀ (P S : Type) [Inhabited P] (M : MerkleExt F P) (T : TransExt F S)
          (l0 last : FriLayer F P) (pre : List (FriLayer F P)) (n : ℕ)
          (qidx : List ℕ) (queries qevals : List F) (s : S),
          decommit_and_fold M T (l0 :: (pre ++ [last])) n qidx queries qevals s
              = some true →
          (dcf_layer_update M T qidx last
              (dcf_advance M T qidx pre
                (dcfInit T l0 n qidx queries qevals s))).1 = true) := by
  constructor
  · intro P Phi M fld p n offset qs abs0 c0
    rw [commit_and_fold_recording_eq]
    have hsplit := caf_loop_layers_append Phi M (recordingTrans fld) qs
      (bitLen (listDegree p)) p n offset
      (abs0 ++ [(cafLayer0 Phi M qs p n offset : FriLayer F P).root], c0)
      [cafLayer0 Phi M qs p n offset] []
    rw [show ([cafLayer0 Phi M qs p n offset] : List (FriLayer F P))
        = [cafLayer0 Phi M qs p n offset] ++ [] from (List.append_nil _).symm,
      hsplit.1, hsplit.2, caf_loop_recording_absorb]
    simp [List.append_assoc]
  · intro P S instP M T l0 last pre n qidx queries qevals s hdec
    rw [decommit_and_fold] at hdec
    have hb : (first_layer_checks M l0 qidx qevals n
        && dcf_loop M T qidx (pre ++ [last])
            (dcfInit T l0 n qidx queries qevals s)) = true :=
      Option.some.inj hdec
    have hloop : dcf_loop M T qidx (pre ++ [last])
        (dcfInit T l0 n qidx queries qevals s) = true :=
      (Bool.and_eq_true_iff.1 hb).2
    rw [dcf_loop_append] at hloop
    have hlast : dcf_loop M T qidx [last]
        (dcf_advance M T qidx pre (dcfInit T l0 n qidx queries qevals s)) = true :=
      (Bool.and_eq_true_iff.1 hloop).2
    simp only [dcf_loop, Bool.and_true] at hlast
    exact hlast

/-- Concrete instance: a two-layer decommitment that returns true, whose
last-layer check therefore succeeds. -/
theorem fri_final_layer_spec_witness :
    decommit_and_fold valMerkle17 recordingTrans17
        ([⟨[7], []⟩, ⟨[9], []⟩] : List (FriLayer (ZMod 17) Unit))
        4 [0] [1] [0] ([], 0) = some true
      ∧ (dcf_layer_update valMerkle17 recordingTrans17 [0]
          (⟨[9], []⟩ : FriLayer (ZMod 17) Unit)
          (dcf_advance valMerkle17 recordingTrans17 [0] []
            (dcfInit recordingTrans17 (⟨[7], []⟩ : FriLayer (ZMod 17) Unit)
              4 [0] [1] [0] ([], 0)))).1 = true :=
  ⟨by decide,
    (@fri_final_layer_spec (ZMod 17) _ _).2 Unit (List (List ℕ) × ℕ)
      valMerkle17 recordingTrans17 ⟨[7], []⟩ ⟨[9], []⟩ [] 4 [0] [1] [0] ([], 0)
      (by decide)⟩

/-! ## STARK verifier (verifier.rs) -/

instance {P : Type} [Inhabited P] : Inhabited (InclusionProof F P) :=
  ⟨⟨0, default⟩⟩

/-- Public input tuple (common.rs PublicInput): modulus, interpolation
domain size, evaluation domain size, number of queries and the two
boundary values. -/
structure PublicInput (F : Type) where
  modulus : ℕ
  int_dom_size : ℕ
  eval_dom_size : ℕ
  num_queries : ℕ
  fib_squared_0 : F
  fib_squared_1022 : F

/-- The proof object as destructured by verify_proof (verifier.rs lines
48-52): trace commitment root, flat list of trace openings (three per
query), and the FRI layers. -/
structure StarkProof (F P : Type) where
  trace_poly_root : List ℕ
  trace_poly_proofs : List (InclusionProof F P)
  fri_layers : List (FriLayer F P)

/-- The hard-coded auxiliary index offsets of verifier.rs line 95. -/
def aux_indices : List ℕ := [0, 8, 16]

/-- All trace-opening indices: for each query index q the three indices
(q + j) mod eval_dom_size for j in aux_indices, flattened in order. -/
def all_indices (query_indices : List ℕ) (eval_dom_size : ℕ) : List ℕ :=
  (query_indices.map (fun i =>
    aux_indices.map (fun j => (i + j) % eval_dom_size))).flatten

/-- Modelled from the spec: verifier.rs calls a free function
common::verify_inclusion_proofs(indices, proofs, root) that is absent from
the sources (common.rs only has the VectorCommitment method of the same
name).  Per spec section 4.9 step 4 it verifies each queried opening
against the trace root at its index, pairing the index list with the
opening list in order. -/
def verify_inclusion_proofs_free {P : Type} (M : MerkleExt F P)
    (indices : List ℕ) (proofs : List (InclusionProof F P))
    (root : List ℕ) : Bool :=
  ((indices.zip proofs).map
    (fun pr => M.pathVerify root pr.1 pr.2.eval pr.2.path)).all (fun v => v)

/-- Embedding of the composition-polynomial reconstruction of verifier.rs
lines 115-132: for the i-th query index, with x0 = offset * w^idx and the
three opened trace values t, the value
a(t0 - a0)/(x0 - 1) + b(t0 - a1022)/(x0 - g^1022)
  + c(t2 - t1² - t0²)(x0 - g^1021)(x0 - g^1022)(x0 - g^1023)/(x0^1024 - 1). -/
def comp_poly_query_evals {P : Type} [Inhabited P] (g w a b c : F)
    (offset fib0 fib1022 : F) (query_indices : List ℕ)
    (proofs : List (InclusionProof F P)) : List F :=
  let g_to_the_1021 := g ^ (1021 : ℕ)
  let g_to_the_1022 := g * g_to_the_1021
  let g_to_the_1023 := g * g_to_the_1022
  query_indices.enum.map (fun pr =>
    let x0 := offset * w ^ pr.2
    let t := (List.range 3).map (fun k => (proofs.getD (3 * pr.1 + k) default).eval)
    a * (t.getD 0 0 - fib0) / (x0 - 1)
      + b * (t.getD 0 0 - fib1022) / (x0 - g_to_the_1022)
      + c * ((t.getD 2 0 - (t.getD 1 0) ^ 2 - (t.getD 0 0) ^ 2)
          * (x0 - g_to_the_1021) * (x0 - g_to_the_1022) * (x0 - g_to_the_1023)
          / (x0 ^ (1024 : ℕ) - 1)))

/-- Transcript state after absorbing the six public inputs in the order of
verifier.rs lines 56-61. -/
def vp_initial_state {S : Type} (T : TransExt F S) (pub : PublicInput F) : S :=
  T.appendBytes
    (T.appendBytes
      (T.appendBytes
        (T.appendBytes
          (T.appendBytes
            (T.appendBytes T.initState (T.u256Bytes pub.modulus))
            (T.usizeBytes pub.int_dom_size))
          (T.usizeBytes pub.eval_dom_size))
        (T.usizeBytes pub.num_queries))
      (T.feBytes pub.fib_squared_0))
    (T.feBytes pub.fib_squared_1022)

/-- The query indices the verifier samples after absorbing the public
inputs, the trace root and the three constraint coefficients. -/
def vp_query_indices {S : Type} (T : TransExt F S) (pub : PublicInput F)
    (root : List ℕ) : List ℕ :=
  let s := T.appendBytes (vp_initial_state T pub) root
  let ar := T.sampleField s
  let br := T.sampleField ar.2
  let cr := T.sampleField br.2
  (sample_queries T pub.num_queries pub.eval_dom_size cr.2).1

/-- Embedding of verifier.rs verify_proof: absorb public inputs and the
trace root, sample the three coefficients and the query indices, verify
the trace openings; then (Part 3, FRI decommitment) the function computes
the composition values and returns true without any further check. -/
def verify_proof {P S : Type} [Inhabited P] (Phi : FieldExt F)
    (M : MerkleExt F P) (T : TransExt F S) (public_input : PublicInput F)
    (stark_proof : StarkProof F P) : Bool :=
  let s := T.appendBytes (vp_initial_state T public_input)
    stark_proof.trace_poly_root
  let offset : F := 2
  let g := Phi.rootOfUnity (bitLen public_input.int_dom_size - 1)
  let w := Phi.rootOfUnity (bitLen public_input.eval_dom_size - 1)
  let ar := T.sampleField s
  let br := T.sampleField ar.2
  let cr := T.sampleField br.2
  let query_indices :=
    (sample_queries T public_input.num_queries public_input.eval_dom_size cr.2).1
  let inds := all_indices query_indices public_input.eval_dom_size
  if verify_inclusion_proofs_free M inds stark_proof.trace_poly_proofs
      stark_proof.trace_poly_root then
    let _comp := comp_poly_query_evals g w ar.1 br.1 cr.1 offset
      public_input.fib_squared_0 public_input.fib_squared_1022 query_indices
      stark_proof.trace_poly_proofs
    true
  else false

/-! ### Claim C8: trace opening indices -/

theorem pow_mod_of_root (w : F) (D m : ℕ) (hw : w ^ D = 1) :
    w ^ (m % D) = w ^ m := by
  conv_rhs => rw [← Nat.mod_add_div m D]
  rw [pow_add, pow_mul, hw, one_pow, mul_one]

/-- Claim C8: for each query q the verifier checks the openings at the
indices (q, q+8, q+16) mod D; these offsets are 0·b, 1·b, 2·b for
b = D/N = 8192/1024 = 8; and on the low-degree extension vector
[T(h·w^i)]_{i<D} the entry at index (q + j·b) mod D is T(x0·g^j) with
x0 = h·w^q and g = w^b, whenever w^D = 1. -/
theorem aux_indices_spec :
    (∀ (qidx : List ℕ) (D : ℕ),
        all_indices qidx D
          = (qidx.map (fun q => [q % D, (q + 8) % D, (q + 16) % D])).flatten)
      ∧ aux_indices = [0 * (8192 / 1024), 1 * (8192 / 1024), 2 * (8192 / 1024)]
      ∧ (∀ (t : F → F) (h w : F) (q j : ℕ),
          w ^ (8192 : ℕ) = 1 → q < 8192 → j < 3 →
          ((List.range 8192).map (fun i => t (h * w ^ i))).getD
              ((q + j * (8192 / 1024)) % 8192) 0
            = t ((h * w ^ q) * (w ^ (8192 / 1024)) ^ j)) := by
  refine ⟨?_, by norm_num [aux_indices], ?_⟩
  · intro qidx D
    simp [all_indices, aux_indices]
  · intro t h w q j hw hq hj
    have hb : (8192 : ℕ) / 1024 = 8 := by norm_num
    rw [hb]
    rw [getD_map_range 8192 _ _ (Nat.mod_lt _ (by norm_num))]
    rw [pow_mod_of_root w 8192 _ hw, pow_add, mul_comm j 8, pow_mul, mul_assoc]

/-- Concrete instance of the index correspondence with w = 1 over ℚ. -/
theorem aux_indices_spec_witness :
    ((1 : ℚ) ^ (8192 : ℕ) = 1 ∧ 5 < 8192 ∧ 1 < 3)
      ∧ ((List.range 8192).map (fun i => (id : ℚ → ℚ) (2 * (1 : ℚ) ^ i))).getD
          ((5 + 1 * (8192 / 1024)) % 8192) 0
        = id ((2 * (1 : ℚ) ^ (5 : ℕ)) * ((1 : ℚ) ^ ((8192 : ℕ) / 1024)) ^ (1 : ℕ)) :=
  ⟨⟨one_pow _, by norm_num, by norm_num⟩,
    aux_indices_spec.2.2 id 2 1 5 1 (one_pow _) (by norm_num) (by norm_num)⟩

/-! ### Claim C6: composition-value reconstruction -/

theorem getD_enum_map {α : Type} (l : List α) (d : α) (f : ℕ × α → F) (i : ℕ)
    (h : i < l.length) :
    (l.enum.map f).getD i 0 = f (i, l.getD i d) := by
  have hl : i < (l.enum.map f).length := by simpa using h
  rw [List.getD_eq_getElem _ _ hl, List.getElem_map, List.getD_eq_getElem _ _ h]
  congr 1
  exact List.getElem_enum _ _ _

/-- Claim C6: for the i-th sampled query index q the verifier reconstructs
the composition value at x0 = 2·w^q (offset h = 2) as
α(t0 − a0)/(x0 − 1) + β(t0 − a1022)/(x0 − g^1022)
 + γ(t2 − t1² − t0²)(x0 − g^1021)(x0 − g^1022)(x0 − g^1023)/(x0^1024 − 1),
with t0, t1, t2 the opened trace values at positions 3i, 3i+1, 3i+2 of the
opening list. -/
theorem comp_poly_query_evals_spec {P : Type} [Inhabited P]
    (g w a b c fib0 fib1022 : F) (qidx : List ℕ)
    (proofs : List (InclusionProof F P)) (i : ℕ) (hi : i < qidx.length) :
    (comp_poly_query_evals g w a b c 2 fib0 fib1022 qidx proofs).getD i 0
      = a * ((proofs.getD (3 * i) default).eval - fib0)
            / (2 * w ^ (qidx.getD i 0) - 1)
        + b * ((proofs.getD (3 * i) default).eval - fib1022)
            / (2 * w ^ (qidx.getD i 0) - g ^ (1022 : ℕ))
        + c * (((proofs.getD (3 * i + 2) default).eval
              - (proofs.getD (3 * i + 1) default).eval ^ 2
              - (proofs.getD (3 * i) default).eval ^ 2)
            * (2 * w ^ (qidx.getD i 0) - g ^ (1021 : ℕ))
            * (2 * w ^ (qidx.getD i 0) - g ^ (1022 : ℕ))
            * (2 * w ^ (qidx.getD i 0) - g ^ (1023 : ℕ))
            / ((2 * w ^ (qidx.getD i 0)) ^ (1024 : ℕ) - 1)) := by
  have h1022 : g * g ^ (1021 : ℕ) = g ^ (1022 : ℕ) := (pow_succ' g 1021).symm
  have h1023 : g * g ^ (1022 : ℕ) = g ^ (1023 : ℕ) := (pow_succ' g 1022).symm
  rw [comp_poly_query_evals]
  rw [getD_enum_map qidx 0 _ i hi]
  have ht0 : (((List.range 3).map
      (fun k => (proofs.getD (3 * i + k) default).eval)).getD 0 0)
        = (proofs.getD (3 * i) default).eval := by
    rw [getD_map_range 3 _ 0 (by norm_num)]
    simp
  have ht1 : (((List.range 3).map
      (fun k => (proofs.getD (3 * i + k) default).eval)).getD 1 0)
        = (proofs.getD (3 * i + 1) default).eval := by
    rw [getD_map_range 3 _ 1 (by norm_num)]
  have ht2 : (((List.range 3).map
      (fun k => (proofs.getD (3 * i + k) default).eval)).getD 2 0)
        = (proofs.getD (3 * i + 2) default).eval := by
    rw [getD_map_range 3 _ 2 (by norm_num)]
  simp only [ht0, ht1, ht2, h1022, h1023]

/-- Concrete instance of the reconstruction formula shape. -/
theorem comp_poly_query_evals_spec_witness :
    (0 < 1)
      ∧ (comp_poly_query_evals (3 : ZMod 13) 2 1 1 1 2 1 1 [0]
            ([] : List (InclusionProof (ZMod 13) Unit))).getD 0 0
        = 1 * ((([] : List (InclusionProof (ZMod 13) Unit)).getD 0 default).eval - 1)
              / (2 * (2 : ZMod 13) ^ ((([0] : List ℕ).getD 0 0)) - 1)
          + 1 * ((([] : List (InclusionProof (ZMod 13) Unit)).getD 0 default).eval - 1)
              / (2 * (2 : ZMod 13) ^ ((([0] : List ℕ).getD 0 0)) - (3 : ZMod 13) ^ (1022 : ℕ))
          + 1 * (((([] : List (InclusionProof (ZMod 13) Unit)).getD 2 default).eval
                - (([] : List (InclusionProof (ZMod 13) Unit)).getD 1 default).eval ^ 2
                - (([] : List (InclusionProof (ZMod 13) Unit)).getD 0 default).eval ^ 2)
              * (2 * (2 : ZMod 13) ^ ((([0] : List ℕ).getD 0 0)) - (3 : ZMod 13) ^ (1021 : ℕ))
              * (2 * (2 : ZMod 13) ^ ((([0] : List ℕ).getD 0 0)) - (3 : ZMod 13) ^ (1022 : ℕ))
              * (2 * (2 : ZMod 13) ^ ((([0] : List ℕ).getD 0 0)) - (3 : ZMod 13) ^ (1023 : ℕ))
              / ((2 * (2 : ZMod 13) ^ ((([0] : List ℕ).getD 0 0))) ^ (1024 : ℕ) - 1)) :=
  ⟨Nat.zero_lt_one,
    comp_poly_query_evals_spec 3 2 1 1 1 1 1 [0]
      ([] : List (InclusionProof (ZMod 13) Unit)) 0 (by norm_num)⟩

/-! ### Claim C1: verify_proof skips FRI decommitment -/

/-- Counter transcript over GF(13) used to run verify_proof concretely. -/
def counterTrans13 : TransExt (ZMod 13) ℕ where
  initState := 0
  appendBytes := fun s _ => s + 1
  sampleField := fun s => (0, s + 1)
  sampleBytes := fun s => (List.replicate 32 0, s + 1)
  feBytes := fun _ => []
  usizeBytes := fun _ => []
  u256Bytes := fun _ => []

/-- Root-of-unity table for GF(13): 5 has order 4. -/
def fieldExt13 : FieldExt (ZMod 13) := ⟨fun k => if k = 2 then 5 else 2⟩

/-- Merkle interface over GF(13) whose path verification always succeeds. -/
def trueMerkle13 : MerkleExt (ZMod 13) Unit :=
  ⟨fun _ => [], fun _ _ => (), fun _ _ _ _ => true⟩

/-- Claim C1 diverges from the code: verify_proof never runs the FRI
decommit-and-fold step.  Its result is independent of the proof's FRI
layers; it returns true exactly when the trace-opening inclusion check
passes; and concretely a proof with valid trace openings and an empty FRI
layer list (on which decommit_and_fold would panic, and any FRI check
would fail) is accepted. -/
theorem verify_proof_skips_fri :
    (∀ (P S : Type) [Inhabited P] (Phi : FieldExt F) (M : MerkleExt F P)
        (T : TransExt F S) (pub : PublicInput F) (root : List ℕ)
        (prfs : List (InclusionProof F P))
        (layers layers2 : List (FriLayer F P)),
        verify_proof Phi M T pub ⟨root, prfs, layers⟩
          = verify_proof Phi M T pub ⟨root, prfs, layers2⟩)
      ∧ (∀ (P S : Type) [Inhabited P] (Phi : FieldExt F) (M : MerkleExt F P)
          (T : TransExt F S) (pub : PublicInput F) (root : List ℕ)
          (prfs : List (InclusionProof F P)) (layers : List (FriLayer F P)),
          verify_proof Phi M T pub ⟨root, prfs, layers⟩
            = verify_inclusion_proofs_free M
                (all_indices (vp_query_indices T pub root) pub.eval_dom_size)
                prfs root)
      ∧ verify_proof fieldExt13 trueMerkle13 counterTrans13
          ⟨13, 4, 8, 1, 1, 1⟩
          ⟨[0], [⟨0, ()⟩, ⟨0, ()⟩, ⟨0, ()⟩], []⟩ = true := by
  refine ⟨fun P S _ Phi M T pub root prfs layers layers2 => rfl, ?_, by decide⟩
  intro P S instP Phi M T pub root prfs layers
  show (if verify_inclusion_proofs_free M
      (all_indices (vp_query_indices T pub root) pub.eval_dom_size) prfs root
    then _ else false) = _
  cases h : verify_inclusion_proofs_free M
      (all_indices (vp_query_indices T pub root) pub.eval_dom_size) prfs root with
  | false => simp [h]
  | true => simp [h]

/-! ## Polynomial division in evaluation form (poly.rs polynomial_division)

lambdaworks' interpolate_offset_fft returns the unique polynomial of
degree below the domain size interpolating the given values on the offset
domain; it is modelled by an executable Lagrange interpolation over
coefficient lists. -/

theorem evalPoly_map_mul_left (l : List F) (c : F) (x : F) :
    evalPoly (l.map (fun v => c * v)) x = c * evalPoly l x := by
  induction l with
  | nil => simp [evalPoly]
  | cons a t ih => simp [evalPoly, ih]; ring

theorem evalPoly_polyMul (p q : List F) (x : F) :
    evalPoly (polyMul p q) x = evalPoly p x * evalPoly q x := by
  induction p with
  | nil => simp [polyMul, evalPoly]
  | cons a p ih =>
    rw [polyMul, evalPoly_polyAdd, evalPoly_map_mul_left]
    simp only [evalPoly, ih]
    ring

/-- Scalar multiple of a coefficient list. -/
def polySmul (c : F) (p : List F) : List F := p.map (fun v => c * v)

/-- The monic linear factor x - c as a coefficient list. -/
def linFactor (c : F) : List F := [-c, 1]

/-- Product of the monic linear factors with the given roots. -/
def prodLinFactors (cs : List F) : List F :=
  cs.foldr (fun c acc => polyMul (linFactor c) acc) [1]

theorem evalPoly_prodLinFactors (cs : List F) (x : F) :
    evalPoly (prodLinFactors cs) x = (cs.map (fun c => x - c)).prod := by
  induction cs with
  | nil => simp [prodLinFactors, evalPoly]
  | cons c t ih =>
    have hlin : evalPoly (linFactor c) x = x - c := by
      simp only [linFactor, evalPoly]
      ring
    rw [prodLinFactors, List.foldr_cons, evalPoly_polyMul,
      show (List.foldr (fun c acc => polyMul (linFactor c) acc) [1] t)
        = prodLinFactors t from rfl,
      ih, hlin, List.map_cons, List.prod_cons]

/-- Numerator of the i-th Lagrange basis polynomial: the product of the
linear factors at all nodes except the i-th. -/
def nodalExcept (xs : List F) (i : ℕ) : List F :=
  prodLinFactors (((List.range xs.length).filter (fun j => decide (j ≠ i))).map
    (fun j => xs.getD j 0))

/-- The i-th Lagrange basis polynomial for the node list xs. -/
def lagBasis (xs : List F) (i : ℕ) : List F :=
  polySmul (evalPoly (nodalExcept xs i) (xs.getD i 0))⁻¹ (nodalExcept xs i)

/-- Lagrange interpolation through the nodes xs with values ys. -/
def lagInterp (xs ys : List F) : List F :=
  ((List.range xs.length).map
    (fun i => polySmul (ys.getD i 0) (lagBasis xs i))).foldr polyAdd []

/-- Model of lambdaworks interpolate_offset_fft: the interpolation of the
values on the offset domain of their own length. -/
def interpolate_offset_fft (Phi : FieldExt F) (values : List F) (offset : F) :
    List F :=
  lagInterp
    ((List.range values.length).map
      (fun i => offset * Phi.rootOfUnity (bitLen values.length - 1) ^ i))
    values

/-- Embedding of poly.rs polynomial_division: evaluate numerator and
denominator on the offset domain, divide pointwise, interpolate back. -/
def polynomial_division (Phi : FieldExt F) (num den : List F)
    (domain_size : ℕ) (offset : F) : List F :=
  let num_eval := evaluate_offset_fft Phi num domain_size offset
  let den_eval := evaluate_offset_fft Phi den domain_size offset
  let poly_eval := List.zipWith (fun a b => a / b) num_eval den_eval
  interpolate_offset_fft Phi poly_eval offset

theorem evalPoly_polySmul (c : F) (p : List F) (x : F) :
    evalPoly (polySmul c p) x = c * evalPoly p x := evalPoly_map_mul_left p c x

theorem evalPoly_foldr_polyAdd (L : List (List F)) (x : F) :
    evalPoly (L.foldr polyAdd []) x = (L.map (fun p => evalPoly p x)).sum := by
  induction L with
  | nil => simp [evalPoly]
  | cons p t ih => rw [List.foldr_cons, evalPoly_polyAdd, ih, List.map_cons,
      List.sum_cons]

theorem sum_map_range_single (g : ℕ → F) (n k : ℕ) (hk : k < n)
    (h : ∀ j, j < n → j ≠ k → g j = 0) :
    ((List.range n).map g).sum = g k := by
  induction n with
  | zero => omega
  | succ n ih =>
    rw [List.range_succ, List.map_append, List.sum_append]
    by_cases hkn : k = n
    · subst hkn
      have hz : ((List.range k).map g).sum = 0 := by
        apply List.sum_eq_zero
        intro x hx
        obtain ⟨j, hj, rfl⟩ := List.mem_map.1 hx
        exact h j (by simpa using Nat.lt_succ_of_lt (List.mem_range.1 hj))
          (Nat.ne_of_lt (List.mem_range.1 hj))
      simp [hz]
    · have hlast : g n = 0 := h n (Nat.lt_succ_self n) (fun hc => hkn hc.symm)
      rw [ih (by omega) (fun j hj hjk => h j (by omega) hjk)]
      simp [hlast]

theorem nodalExcept_eval (xs : List F) (i : ℕ) (y : F) :
    evalPoly (nodalExcept xs i) y
      = (((List.range xs.length).filter (fun j => decide (j ≠ i))).map
          (fun j => y - xs.getD j 0)).prod := by
  rw [nodalExcept, evalPoly_prodLinFactors, List.map_map]
  rfl

/-- At a node distinct from i, the i-th nodal polynomial vanishes. -/
theorem nodalExcept_eval_ne (xs : List F) (i k : ℕ) (hk : k < xs.length)
    (hki : k ≠ i) :
    evalPoly (nodalExcept xs i) (xs.getD k 0) = 0 := by
  rw [nodalExcept_eval]
  apply List.prod_eq_zero
  have hmem : k ∈ (List.range xs.length).filter (fun j => decide (j ≠ i)) := by
    rw [List.mem_filter]
    exact ⟨List.mem_range.2 hk, by simpa using hki⟩
  rw [List.mem_map]
  exact ⟨k, hmem, by simp⟩

/-- At its own node, the i-th nodal polynomial is nonzero when the nodes
are pairwise distinct. -/
theorem nodalExcept_eval_self_ne_zero (xs : List F) (i : ℕ)
    (hdist : ∀ a b, a < xs.length → b < xs.length → a ≠ b →
      xs.getD a 0 ≠ xs.getD b 0)
    (hi : i < xs.length) :
    evalPoly (nodalExcept xs i) (xs.getD i 0) ≠ 0 := by
  rw [nodalExcept_eval]
  apply List.prod_ne_zero
  intro hmem
  obtain ⟨x, hx, hx0⟩ := List.mem_map.1 hmem
  obtain ⟨hxr, hxi⟩ := List.mem_filter.1 hx
  have hxi2 : x ≠ i := by simpa using hxi
  have hxlen : x < xs.length := List.mem_range.1 hxr
  exact hdist i x hi hxlen (fun hc => hxi2 hc.symm)
    (by rw [sub_eq_zero] at hx0; exact hx0)

/-- Interpolation property: the Lagrange interpolant takes the prescribed
value at every node. -/
theorem lagInterp_eval (xs ys : List F)
    (hdist : ∀ a b, a < xs.length → b < xs.length → a ≠ b →
      xs.getD a 0 ≠ xs.getD b 0)
    (k : ℕ) (hk : k < xs.length) :
    evalPoly (lagInterp xs ys) (xs.getD k 0) = ys.getD k 0 := by
  rw [lagInterp, evalPoly_foldr_polyAdd, List.map_map]
  rw [show ((fun p => evalPoly p (xs.getD k 0)) ∘
      fun i => polySmul (ys.getD i 0) (lagBasis xs i))
    = fun i => evalPoly (polySmul (ys.getD i 0) (lagBasis xs i)) (xs.getD k 0)
    from rfl]
  rw [sum_map_range_single _ _ k hk]
  · rw [evalPoly_polySmul, lagBasis, evalPoly_polySmul,
      inv_mul_cancel₀ (nodalExcept_eval_self_ne_zero xs k hdist hk), mul_one]
  · intro j hj hjk
    rw [evalPoly_polySmul, lagBasis, evalPoly_polySmul,
      nodalExcept_eval_ne xs j k hk (fun hc => hjk hc.symm)]
    ring

theorem length_polyAdd (p q : List F) :
    (polyAdd p q).length = max p.length q.length := by
  induction p generalizing q with
  | nil => simp [polyAdd]
  | cons a p ih =>
    cases q with
    | nil => simp [polyAdd]
    | cons b q =>
      rw [polyAdd, List.length_cons, List.length_cons, List.length_cons, ih]
      omega

theorem length_polyMul_linFactor (c : F) (q : List F) (hq : q ≠ []) :
    (polyMul (linFactor c) q).length = q.length + 1 := by
  have h1 : (polyMul [1] q).length = q.length := by
    rw [show polyMul ([1] : List F) q
        = polyAdd (q.map (fun b => 1 * b)) (0 :: polyMul [] q) from rfl,
      length_polyAdd]
    have : q.length ≥ 1 := by
      cases q with
      | nil => exact absurd rfl hq
      | cons x t => simp
    simp only [List.length_map, polyMul, List.length_cons, List.length_nil]
    omega
  rw [show polyMul (linFactor c) q
      = polyAdd (q.map (fun b => -c * b)) (0 :: polyMul [1] q) from rfl,
    length_polyAdd, List.length_cons, h1]
  simp only [List.length_map]
  omega

theorem length_prodLinFactors (cs : List F) :
    (prodLinFactors cs).length = cs.length + 1 := by
  induction cs with
  | nil => rfl
  | cons c t ih =>
    have hne : prodLinFactors t ≠ [] := by
      intro hc
      have := ih
      rw [hc] at this
      simp at this
    rw [show prodLinFactors (c :: t) = polyMul (linFactor c) (prodLinFactors t)
        from rfl,
      length_polyMul_linFactor c _ hne, ih, List.length_cons]

theorem length_filter_ne_range (n i : ℕ) (hi : i < n) :
    ((List.range n).filter (fun j => decide (j ≠ i))).length = n - 1 := by
  induction n with
  | zero => omega
  | succ n ih =>
    rw [List.range_succ, List.filter_append, List.length_append]
    by_cases hin : i = n
    · subst hin
      rw [List.filter_eq_self.2 (fun j hj => by
        simp only [decide_eq_true_eq]
        exact Nat.ne_of_lt (List.mem_range.1 hj))]
      simp
    · rw [ih (by omega)]
      have hd : n ≠ i := fun hc => hin hc.symm
      have h1 : ([n].filter (fun j => decide (j ≠ i))).length = 1 := by
        simp [hd]
      rw [h1]
      omega

theorem length_foldr_polyAdd_le (L : List (List F)) (m : ℕ)
    (h : ∀ p ∈ L, p.length ≤ m) : (L.foldr polyAdd []).length ≤ m := by
  induction L with
  | nil => simp
  | cons p t ih =>
    rw [List.foldr_cons, length_polyAdd]
    have h1 := h p (List.mem_cons_self p t)
    have h2 := ih (fun r hr => h r (List.mem_cons_of_mem p hr))
    omega

theorem length_lagInterp_le (xs ys : List F) :
    (lagInterp xs ys).length ≤ xs.length := by
  apply length_foldr_polyAdd_le
  intro p hp
  obtain ⟨i, hi, rfl⟩ := List.mem_map.1 hp
  have hi2 : i < xs.length := List.mem_range.1 hi
  show (polySmul (ys.getD i 0) (lagBasis xs i)).length ≤ xs.length
  rw [polySmul, List.length_map, lagBasis, polySmul, List.length_map,
    nodalExcept, length_prodLinFactors, List.length_map,
    length_filter_ne_range _ _ hi2]
  omega

theorem degree_lagInterp_lt (xs ys : List F) :
    (toPoly (lagInterp xs ys)).degree < (xs.length : ℕ) := by
  rcases degree_toPoly_lt (lagInterp xs ys) with h | h
  · exact lt_of_lt_of_le h (by exact_mod_cast length_lagInterp_le xs ys)
  · rw [h]
    show (toPoly ([] : List F)).degree < _
    rw [show toPoly ([] : List F) = 0 from rfl, Polynomial.degree_zero]
    exact WithBot.bot_lt_coe _

theorem getD_zipWith (f : F → F → F) (as bs : List F) (i : ℕ)
    (ha : i < as.length) (hb : i < bs.length) :
    (List.zipWith f as bs).getD i 0 = f (as.getD i 0) (bs.getD i 0) := by
  have hz : i < (List.zipWith f as bs).length := by
    rw [List.length_zipWith]
    omega
  rw [List.getD_eq_getElem _ _ hz, List.getD_eq_getElem _ _ ha,
    List.getD_eq_getElem _ _ hb, List.getElem_zipWith]

/-- Claim C4: for numerator and denominator whose lengths are at most the
power-of-two domain size, if the denominator divides the numerator exactly
(witnessed by the quotient list q) and has no root on the offset
evaluation domain, and the domain points are pairwise distinct, then
polynomial_division returns exactly the quotient num/den as a polynomial. -/
theorem polynomial_division_spec (Phi : FieldExt F) (num den q : List F)
    (domain_size : ℕ) (offset : F)
    (hn : 0 < domain_size) (hpow : ∃ k, domain_size = 2 ^ k)
    (hnum : num.length ≤ domain_size) (hden : den.length ≤ domain_size)
    (hdiv : toPoly num = toPoly q * toPoly den)
    (hdist : ∀ a, a < domain_size → ∀ b, b < domain_size → a ≠ b →
      offset * Phi.rootOfUnity (bitLen domain_size - 1) ^ a
        ≠ offset * Phi.rootOfUnity (bitLen domain_size - 1) ^ b)
    (hroot : ∀ i, i < domain_size →
      evalPoly den (offset * Phi.rootOfUnity (bitLen domain_size - 1) ^ i) ≠ 0) :
    toPoly (polynomial_division Phi num den domain_size offset) = toPoly q := by
  set w := Phi.rootOfUnity (bitLen domain_size - 1) with hw
  set pe := List.zipWith (fun a b => a / b)
    (evaluate_offset_fft Phi num domain_size offset)
    (evaluate_offset_fft Phi den domain_size offset) with hpe
  have hpe_len : pe.length = domain_size := by
    rw [hpe, List.length_zipWith, evaluate_offset_fft, evaluate_offset_fft]
    simp
  have hres : polynomial_division Phi num den domain_size offset
      = lagInterp ((List.range domain_size).map (fun i => offset * w ^ i)) pe := by
    rw [polynomial_division, interpolate_offset_fft, ← hpe, hpe_len]
  set xs := (List.range domain_size).map (fun i => offset * w ^ i) with hxs
  have hxs_len : xs.length = domain_size := by rw [hxs]; simp
  have hxs_getD : ∀ i, i < domain_size → xs.getD i 0 = offset * w ^ i := by
    intro i hi
    rw [hxs, getD_map_range _ _ _ hi]
  have hdist2 : ∀ a b, a < xs.length → b < xs.length → a ≠ b →
      xs.getD a 0 ≠ xs.getD b 0 := by
    intro a b ha hb hab
    rw [hxs_len] at ha hb
    rw [hxs_getD a ha, hxs_getD b hb]
    exact hdist a ha b hb hab
  have hden_ne : toPoly den ≠ 0 := by
    intro hc
    have h0 := hroot 0 hn
    rw [← evalPoly_toPoly, hc] at h0
    simp at h0
  apply Polynomial.eq_of_degrees_lt_of_eval_index_eq (Finset.range domain_size)
    (v := fun i => offset * w ^ i)
  · intro a ha b hb hab
    by_contra hne
    exact hdist a (by simpa using ha) b (by simpa using hb) hne hab
  · rw [Finset.card_range, hres, ← hxs_len]
    exact degree_lagInterp_lt xs pe
  · rw [Finset.card_range]
    rcases eq_or_ne (toPoly q) 0 with hq0 | hq0
    · rw [hq0, Polynomial.degree_zero]
      exact WithBot.bot_lt_coe _
    · have hnum_ne : toPoly num ≠ 0 := by
        rw [hdiv]
        exact mul_ne_zero hq0 hden_ne
      have hnum_nil : num ≠ [] := by
        intro hc
        rw [hc] at hnum_ne
        exact hnum_ne rfl
      have hdeg_num : (toPoly num).degree < (num.length : ℕ) := by
        rcases degree_toPoly_lt num with h | h
        · exact h
        · exact absurd h hnum_nil
      have hq_le : (toPoly q).degree ≤ (toPoly num).degree := by
        rw [hdiv, Polynomial.degree_mul]
        exact le_add_of_nonneg_right (Polynomial.zero_le_degree_iff.2 hden_ne)
      calc (toPoly q).degree ≤ (toPoly num).degree := hq_le
        _ < (num.length : ℕ) := hdeg_num
        _ ≤ (domain_size : ℕ) := by exact_mod_cast hnum
  · intro i hi
    have hi2 : i < domain_size := by simpa using hi
    have hLHS : Polynomial.eval (offset * w ^ i)
        (toPoly (polynomial_division Phi num den domain_size offset))
          = pe.getD i 0 := by
      rw [hres, evalPoly_toPoly, ← hxs_getD i hi2,
        lagInterp_eval xs pe hdist2 i (by rw [hxs_len]; exact hi2)]
    have hnum_eval : evalPoly num (offset * w ^ i)
        = evalPoly q (offset * w ^ i) * evalPoly den (offset * w ^ i) := by
      rw [← evalPoly_toPoly, ← evalPoly_toPoly, ← evalPoly_toPoly, hdiv,
        Polynomial.eval_mul]
    have hpe_i : pe.getD i 0 = evalPoly q (offset * w ^ i) := by
      rw [hpe, getD_zipWith _ _ _ i (by simpa [evaluate_offset_fft] using hi2)
        (by simpa [evaluate_offset_fft] using hi2)]
      rw [show evaluate_offset_fft Phi num domain_size offset
          = (List.range domain_size).map (fun j => evalPoly num (offset * w ^ j))
          from rfl,
        show evaluate_offset_fft Phi den domain_size offset
          = (List.range domain_size).map (fun j => evalPoly den (offset * w ^ j))
          from rfl,
        getD_map_range _ _ _ hi2, getD_map_range _ _ _ hi2]
      rw [hnum_eval, mul_div_assoc, div_self (hroot i hi2), mul_one]
    rw [hLHS, hpe_i]
    exact (evalPoly_toPoly q _).symm

/-- Root-of-unity table for GF(5): 2 has order 4. -/
def fieldExt5 : FieldExt (ZMod 5) := ⟨fun k => if k = 2 then 2 else 1⟩

/-- Concrete instance of exact division: x² divided by x over GF(5) on the
offset domain of size 4 yields the quotient x. -/
theorem polynomial_division_spec_witness :
    ((0 < 4 ∧ ([0, 0, 1] : List (ZMod 5)).length ≤ 4
        ∧ ([0, 1] : List (ZMod 5)).length ≤ 4)
      ∧ toPoly ([0, 0, 1] : List (ZMod 5)) = toPoly [0, 1] * toPoly [0, 1]
      ∧ (∀ i, i < 4 →
          evalPoly ([0, 1] : List (ZMod 5))
            (1 * fieldExt5.rootOfUnity (bitLen 4 - 1) ^ i) ≠ 0))
      ∧ toPoly (polynomial_division fieldExt5 [0, 0, 1] [0, 1] 4 1)
          = toPoly ([0, 1] : List (ZMod 5)) :=
  ⟨⟨⟨by decide, by decide, by decide⟩,
    by
      show toPoly [0, 0, 1] = toPoly [0, 1] * toPoly [0, 1]
      simp only [toPoly, map_zero, map_one]
      ring,
    by decide⟩,
    polynomial_division_spec fieldExt5 [0, 0, 1] [0, 1] [0, 1] 4 1
      (by decide) ⟨2, rfl⟩ (by decide) (by decide)
      (by
        show toPoly [0, 0, 1] = toPoly [0, 1] * toPoly [0, 1]
        simp only [toPoly, map_zero, map_one]
        ring)
      (by decide) (by decide)⟩

end Stark101
